import Mathlib

/-!
# Verification of the Reanimated worklet factory pass

Shallow embedding of `packages/react-native-reanimated/plugin/src/workletFactory.ts`:
the worklet hash, the naming resolver, the directive stripper, the capture
(closure) analysis and the wrapper assembly, together with proofs of the
specified properties.

Machine integers are modelled as `Int`/`Nat` with explicit reductions modulo
`2^32` where JavaScript coerces to 32-bit integers; strings are modelled as
their lists of UTF-16 code units (for the hash) or as Lean `String`s (for the
naming resolver).
-/

namespace Worklet

/-! ## JavaScript 32-bit integer coercions -/

/-- JavaScript `ToUint32`: the value reduced into `[0, 2^32)`. -/
def toUint32 (n : Int) : Nat := (n % (2 ^ 32 : Int)).toNat

/-- JavaScript `ToInt32`: the value reduced into `[-2^31, 2^31)`. -/
def toInt32 (n : Int) : Int :=
  let m := n % (2 ^ 32 : Int)
  if m < 2 ^ 31 then m else m - 2 ^ 32

/-- JavaScript bitwise `a ^ b`: both operands are coerced to 32-bit integers,
xored bitwise, and the result is read back as a signed 32-bit integer. -/
def jsXor (a b : Int) : Int := toInt32 ((toUint32 a ^^^ toUint32 b : Nat) : Int)

/-! ## The hash function (`workletFactory.ts`, `hash`, lines 313–328)

```js
function hash(str) {
  let i = str.length;
  let hash1 = 5381;
  let hash2 = 52711;
  while (i--) {
    const char = str.charCodeAt(i);
    hash1 = (hash1 * 33) ^ char;
    hash2 = (hash2 * 33) ^ char;
  }
  return (hash1 >>> 0) * 4096 + (hash2 >>> 0);
}
```

The while loop walks the string from its last code unit to its first; on the
list of code units this is the following right fold (the head of the list is
processed last). -/

/-- One accumulator of `hash` after the while loop, starting from `seed`. -/
def hashAcc (seed : Int) : List Nat → Int
  | [] => seed
  | c :: rest => jsXor (hashAcc seed rest * 33) (c : Int)

/-- The worklet hash of a string, given as its list of UTF-16 code units. -/
def hash (codes : List Nat) : Nat :=
  toUint32 (hashAcc 5381 codes) * 4096 + toUint32 (hashAcc 52711 codes)

/-! ### The hash as the specification describes it (§4.4)

"maintain two 32-bit accumulators seeded 5381 and 52711; scan the string from
its last character to its first; for each character, update each accumulator as
`(accumulator * 33) xor charCode`, truncated to 32 bits; mask both to unsigned
32-bit range; return `hash1 * 4096 + hash2`." -/

/-- One accumulator of the specification's hash description. -/
def specHashAcc (seed : Nat) : List Nat → Nat
  | [] => seed
  | c :: rest => (specHashAcc seed rest * 33 ^^^ c) % 2 ^ 32

/-- The specification's hash description: both accumulators masked to the
unsigned 32-bit range, combined as `hash1 * 4096 + hash2`. -/
def specHash (codes : List Nat) : Nat :=
  (specHashAcc 5381 codes % 2 ^ 32) * 4096 + (specHashAcc 52711 codes % 2 ^ 32)

/-! ## The naming resolver (`makeWorkletName`, lines 330–362)

`makeWorkletName` builds `suffix = source + state.workletNumber++` (so each
call reads the current per-file counter and then increments it), prepends the
function's own name when one is carried, and sanitizes the result through
`@babel/types` `toIdentifier`.  We model `toIdentifier` on ASCII strings,
classifying characters by their code points. -/

/-- ASCII decimal digit. -/
def isDigitChar (c : Char) : Bool := 48 ≤ c.toNat && c.toNat ≤ 57

/-- ASCII letter. -/
def isAlphaChar (c : Char) : Bool :=
  (65 ≤ c.toNat && c.toNat ≤ 90) || (97 ≤ c.toNat && c.toNat ≤ 122)

/-- Character valid inside an identifier (`[a-zA-Z0-9$_]`). -/
def isIdentChar (c : Char) : Bool :=
  isAlphaChar c || isDigitChar c || c.toNat = 36 || c.toNat = 95

/-- Character valid at the start of an identifier (`[a-zA-Z$_]`). -/
def identStart (c : Char) : Bool := isAlphaChar c || c.toNat = 36 || c.toNat = 95

/-- Character removed by `toIdentifier`'s leading strip (`/^[-0-9]+/`). -/
def isStripChar (c : Char) : Bool := c = '-' || isDigitChar c

/-- Step 1 of `toIdentifier`: every non-identifier character becomes `-`. -/
def sanitizeChar (c : Char) : Char := if isIdentChar c then c else '-'

/-- Camel-casing step of `toIdentifier`:
`name.replace(/[-\s]+(.)?/g, (m, c) => (c ? c.toUpperCase() : ''))`.
After step 1 the string contains no whitespace, so the separators are exactly
the dashes: a maximal dash run followed by a character is replaced by that
character upper-cased, and a trailing dash run is deleted.  The flag records
whether the scanner stands right after a separator run. -/
def camelGo (sep : Bool) : List Char → List Char
  | [] => []
  | c :: rest =>
    if c = '-' then camelGo true rest
    else if sep then c.toUpper :: camelGo false rest
    else c :: camelGo false rest

/-- The camel-casing pass (step 3 of `toIdentifier`). -/
def camel (l : List Char) : List Char := camelGo false l

/-- Words rejected by `isValidIdentifier` (model of
`@babel/helper-validator-identifier`: ECMAScript keywords and strict-mode
reserved words). -/
def reservedWords : List String :=
  ["break", "case", "catch", "continue", "debugger", "default", "do", "else",
   "finally", "for", "function", "if", "return", "switch", "throw", "try",
   "var", "const", "while", "with", "new", "this", "super", "class", "extends",
   "export", "import", "null", "true", "false", "in", "instanceof", "typeof",
   "void", "delete", "implements", "interface", "let", "package", "private",
   "protected", "public", "static", "yield"]

/-- Identifier-shaped character list: nonempty, valid start, valid continuation. -/
def isIdentShaped : List Char → Bool
  | [] => false
  | c :: rest => identStart c && rest.all isIdentChar

/-- Model of `isValidIdentifier` from `@babel/types` on ASCII strings. -/
def isValidIdentifier (s : List Char) : Bool :=
  isIdentShaped s && !(reservedWords.contains (String.mk s))

/-- Model of `@babel/types` `toIdentifier` on ASCII strings:

```js
function toIdentifier(input) {
  input = input + "";
  let name = input.replace(/[^a-zA-Z0-9$_]/g, "-");   // step 1
  name = name.replace(/^[-0-9]+/, "");                 // step 2
  name = name.replace(/[-\s]+(.)?/g, (m, c) => (c ? c.toUpperCase() : "")); // step 3
  if (!isValidIdentifier(name)) name = `_${name}`;
  return name || "_";
}
``` -/
def toIdentifierL (s : List Char) : List Char :=
  let n1 := s.map sanitizeChar
  let n2 := n1.dropWhile isStripChar
  let n3 := camel n2
  let n4 := if isValidIdentifier n3 then n3 else '_' :: n3
  if n4 = [] then ['_'] else n4

/-- `toIdentifier` on Lean strings. -/
def toIdentifier (s : String) : String := String.mk (toIdentifierL s.data)

/-- Decimal digits, most significant first, computed with explicit fuel so that
the definition is structural (the fuel `n + 1` always suffices, since a number
has at most `n + 1` decimal digits). -/
def decDigitsAux (fuel : Nat) (n : Nat) : List Char :=
  match fuel with
  | 0 => []
  | fuel + 1 =>
    if n < 10 then [Char.ofNat (48 + n)]
    else decDigitsAux fuel (n / 10) ++ [Char.ofNat (48 + n % 10)]

/-- Decimal digits of a natural number, most significant first (the rendering
JavaScript's string interpolation gives a nonnegative integer). -/
def decDigits (n : Nat) : List Char := decDigitsAux (n + 1) n

/-- Decimal rendering of the counter (`${state.workletNumber}`). -/
def decStr (n : Nat) : String := String.mk (decDigits n)

/-- Syntactic form of the workletizable function, with its own name attached
when the corresponding node carries an `Identifier` there (`ObjectMethod` key,
`FunctionDeclaration`/`FunctionExpression` id). -/
inductive FunKind where
  | objectMethod (key : Option String)
  | functionDeclaration (id : Option String)
  | functionExpression (id : Option String)
  | arrowFunctionExpression
deriving DecidableEq

/-- JavaScript `filepath.split('/')` on the character list: splits at every
slash, keeping empty segments, and yields one (possibly empty) segment even for
the empty input. -/
def splitOnSlash : List Char → List (List Char)
  | [] => [[]]
  | c :: rest =>
    match splitOnSlash rest with
    | [] => [[]]
    | h :: t => if c = '/' then [] :: h :: t else (c :: h) :: t

/-- JavaScript `filepath.split('/')`. -/
def splitPath (s : String) : List String := (splitOnSlash s.data).map String.mk

/-- POSIX `basename` for the separator-terminated-free paths the plugin sees:
the last slash-separated component. -/
def basename (p : String) : String := ((splitPath p).getLast?).getD p

/-- The `source` tag `makeWorkletName` derives from the originating file path:
the file's base name, prefixed by the dependency name when the path crosses a
`node_modules` boundary, or `"unknownFile"` when no (truthy) filename exists. -/
def sourceOf (filename : Option String) : String :=
  match filename with
  | some filepath =>
    if filepath ≠ "" then
      let base := basename filepath
      let splitFilepath := splitPath filepath
      match splitFilepath.indexOf? "node_modules" with
      | some i => ((splitFilepath.get? (i + 1)).getD "undefined") ++ "_" ++ base
      | none => base
    else "unknownFile"
  | none => "unknownFile"

/-- The prefix prepended to the counter-bearing suffix: the function's own name
followed by `_` when the node carries one, then the `source` tag. -/
def namePrefix (kind : FunKind) (filename : Option String) : String :=
  let source := sourceOf filename
  match kind with
  | .objectMethod (some k) => k ++ "_" ++ source
  | .functionDeclaration (some i) => i ++ "_" ++ source
  | .functionExpression (some i) => i ++ "_" ++ source
  | _ => source

/-- `makeWorkletName` (lines 330–362): returns the resolved name together with
the updated per-file counter (`state.workletNumber++` is a post-increment). -/
def makeWorkletName (kind : FunKind) (filename : Option String) (workletNumber : Nat) :
    String × Nat :=
  (toIdentifier (namePrefix kind filename ++ decStr workletNumber), workletNumber + 1)

/-- The part of `toIdentifier (p ++ digits)` contributed by `p` alone: when the
sanitized `p` contains a non-strippable identifier character, the trailing
decimal digits pass through `toIdentifier` untouched after this prefix. -/
def toIdentPrefix (p : List Char) : List Char :=
  let x := camel ((p.map sanitizeChar).dropWhile isStripChar)
  if isIdentShaped x then x else '_' :: x


/-! ## Syntax trees and scopes for the capture analysis

A mutual family of inductives (lists spelled out as their own types so that
every traversal below is plain structural recursion) modelling the fragment of
the Babel AST that `makeArrayFromCapturedBindings` and
`removeWorkletDirective` interrogate: identifiers (with an abstract source
location), literals, binary expressions, member expressions with their
`computed` flag, object literals with per-property `computed`/`shorthand`
flags, and functions carrying an optional name, parameters, directives and a
statement body. -/

mutual

inductive Expr where
  | ident (name : String) (loc : Option Nat)
  | lit (n : Nat)
  | bin (l r : Expr)
  | member (obj : Expr) (property : Expr) (computed : Bool)
  | objE (props : Props)
  | fnE (f : Fn)

inductive Props where
  | nil
  | cons (head : ObjProp) (tail : Props)

inductive ObjProp where
  | prop (key : Expr) (value : Expr) (computed : Bool) (shorthand : Bool)

inductive Stmts where
  | nil
  | cons (head : Stmt) (tail : Stmts)

inductive Stmt where
  | varDecl (name : String)
  | varDeclInit (name : String) (init : Expr)
  | exprStmt (e : Expr)
  | ret (e : Expr)

inductive Fn where
  | mk (id : Option String) (params : List String) (directives : List String)
       (body : Stmts)

end

def Fn.id : Fn → Option String
  | .mk i _ _ _ => i

def Fn.params : Fn → List String
  | .mk _ p _ _ => p

def Fn.directives : Fn → List String
  | .mk _ _ d _ => d

def Fn.body : Fn → Stmts
  | .mk _ _ _ b => b

/-- The `var`-declared names of a statement list (hoisted to function scope). -/
def declNames : Stmts → List String
  | .nil => []
  | .cons (.varDecl n) t => n :: declNames t
  | .cons (.varDeclInit n _) t => n :: declNames t
  | .cons _ t => declNames t

/-- The names bound in a function's Babel scope (`scope.bindings`): its own
name when the function expression is named, its parameters, and every
`var`-declared name of its body. -/
def Fn.bindings : Fn → List String
  | .mk i p _ b => (match i with | some n => [n] | none => []) ++ p ++ declNames b

/-- One identifier occurrence met by a traversal, together with everything the
two visitors of `makeArrayFromCapturedBindings` interrogate about it: the
result of `path.isReferencedIdentifier()`, whether its parent is a member
expression whose non-computed property it is, whether it is the direct key
child of an object property inside an object expression (and that property's
`shorthand` flag), and the lexical scope chain at the occurrence (innermost
first; the program scope of the lowered standalone file binds nothing). -/
structure Occ where
  name : String
  loc : Option Nat
  referenced : Bool
  memberPropNonComputed : Bool
  objKey : Bool
  objKeyShorthand : Bool
  scopes : List (List String)
deriving DecidableEq

mutual

/-- The pre-order identifier occurrences of the tree, as Babel `traverse`
visits them.  A non-computed member property and an object key that is a bare
identifier are recorded with their parent flags (`isReferencedIdentifier` is
the `computed` flag in both positions); an object value, like any other
expression position, is a plainly referenced occurrence; binder positions
(function name, parameters, declared names) are recorded as non-referenced. -/
def exprOccs (chain : List (List String)) : Expr → List Occ
  | .ident n l => [⟨n, l, true, false, false, false, chain⟩]
  | .lit _ => []
  | .bin l r => exprOccs chain l ++ exprOccs chain r
  | .member obj property computed =>
    exprOccs chain obj ++
    (match property with
     | .ident n l => [⟨n, l, computed, !computed, false, false, chain⟩]
     | p => exprOccs chain p)
  | .objE props => propsOccs chain props
  | .fnE f => fnOccs chain f

def propsOccs (chain : List (List String)) : Props → List Occ
  | .nil => []
  | .cons (.prop k v computed shorthand) rest =>
    (match k with
     | .ident n l => [⟨n, l, computed, false, true, shorthand, chain⟩]
     | ke => exprOccs chain ke) ++
    exprOccs chain v ++ propsOccs chain rest

def stmtsOccs (chain : List (List String)) : Stmts → List Occ
  | .nil => []
  | .cons s rest => stmtOccs chain s ++ stmtsOccs chain rest

def stmtOccs (chain : List (List String)) : Stmt → List Occ
  | .varDecl n => [⟨n, none, false, false, false, false, chain⟩]
  | .varDeclInit n init => ⟨n, none, false, false, false, false, chain⟩ :: exprOccs chain init
  | .exprStmt e => exprOccs chain e
  | .ret e => exprOccs chain e

def fnOccs (chain : List (List String)) : Fn → List Occ
  | f@(.mk i p _ body) =>
    let chain2 := f.bindings :: chain
    (match i with
     | some n => [⟨n, none, false, false, false, false, chain2⟩]
     | none => []) ++
    p.map (fun q => ⟨q, none, false, false, false, false, chain2⟩) ++
    stmtsOccs chain2 body

end

/-! ## The capture analysis (`makeArrayFromCapturedBindings`, lines 364–447) -/

/-- JavaScript `Map.set`: replaces the value of an existing key in place
(insertion position preserved), otherwise appends the new pair at the end. -/
def mapSet {A : Type} (m : List (String × A)) (k : String) (v : A) : List (String × A) :=
  match m with
  | [] => [(k, v)]
  | (k0, v0) :: rest => if k0 = k then (k, v) :: rest else (k0, v0) :: mapSet rest k v

/-- JavaScript `Map.get`. -/
def mapGet {A : Type} (m : List (String × A)) (k : String) : Option A :=
  match m with
  | [] => none
  | (k0, v0) :: rest => if k0 = k then some v0 else mapGet rest k

/-- The two maps threaded through `makeArrayFromCapturedBindings`: `closure`
(name to representative `Identifier` node, of which only the source location
matters downstream) and `isLocationAssignedMap`. -/
structure CaptureState where
  closure : List (String × Option Nat)
  locAssigned : List (String × Bool)
deriving DecidableEq

/-- The `Identifier` visitor of the first traversal (lines 372–421): skip
non-references, allow-listed globals, the function's own name, non-computed
member property names, direct object-property keys, and names bound anywhere on
the scope chain; otherwise `closure.set(name, path.node)` and
`isLocationAssignedMap.set(name, false)`. -/
def visitCapture (globals : List String) (ownName : Option String)
    (st : CaptureState) (o : Occ) : CaptureState :=
  if !o.referenced then st
  else if globals.contains o.name then st
  else if ownName = some o.name then st
  else if o.memberPropNonComputed then st
  else if o.objKey then st
  else if o.scopes.any (fun s => s.contains o.name) then st
  else
    { closure := mapSet st.closure o.name o.loc
      locAssigned := mapSet st.locAssigned o.name false }

/-- The `Identifier` visitor of the second traversal (lines 430–444): for a
referenced identifier whose name is captured and not yet location-assigned,
store this occurrence's location into the captured node and mark the name
assigned. -/
def visitLoc (st : CaptureState) (o : Occ) : CaptureState :=
  if !o.referenced then st
  else
    match mapGet st.closure o.name with
    | none => st
    | some _ =>
      if (mapGet st.locAssigned o.name).getD false then st
      else
        { closure := mapSet st.closure o.name o.loc
          locAssigned := mapSet st.locAssigned o.name true }

/-- `makeArrayFromCapturedBindings` (lines 364–447): traverse the lowered tree
collecting captured bindings, then traverse the original function assigning
locations, and return `Array.from(closure.values())` — modelled as the final
closure association list, whose order is the Map's insertion order.  The
allow-list `globals` (imported from `./globals`, outside this file) is a
parameter; the own-name check reads the ORIGINAL function's `id`. -/
def makeArrayFromCapturedBindings (globals : List String) (ast : Fn) (origFun : Fn) :
    List (String × Option Nat) :=
  let st1 := (fnOccs [[]] ast).foldl (visitCapture globals origFun.id) ⟨[], []⟩
  let st2 := (fnOccs [[]] origFun).foldl visitLoc st1
  st2.closure

/-- First-occurrence-wins deduplication, skipping names in `seen`. -/
def dedupFirstAux (seen : List String) : List String → List String
  | [] => []
  | n :: rest =>
    if seen.contains n then dedupFirstAux seen rest
    else n :: dedupFirstAux (n :: seen) rest

/-- First-occurrence-wins deduplication. -/
def dedupFirst (l : List String) : List String := dedupFirstAux [] l

/-- The capture rule of the specification, as amended, evaluated on one
occurrence: a traversed identifier reference is captured if and only if it is
referenced, its name is neither allow-listed, nor the function's own name, nor
the non-computed property name of a member access, nor the direct key child of
an object-literal property (shorthand or computed alike), nor declared in any
scope on the lexical chain. -/
def specCaptures (globals : List String) (ownName : Option String) (o : Occ) : Bool :=
  o.referenced && !(globals.contains o.name) && !(ownName == some o.name) &&
  !o.memberPropNonComputed && !o.objKey &&
  !(o.scopes.any (fun s => s.contains o.name))

/-- The capture rule exactly as claim C1 words it: among object-literal keys
only SHORTHAND keys are excluded (a computed bare-identifier key would be
captured). -/
def claimCaptures (globals : List String) (ownName : Option String) (o : Occ) : Bool :=
  o.referenced && !(globals.contains o.name) && !(ownName == some o.name) &&
  !o.memberPropNonComputed && !(o.objKey && o.objKeyShorthand) &&
  !(o.scopes.any (fun s => s.contains o.name))

/-- The location of the first referenced occurrence of `n`, if any. -/
def firstRefLoc (occs : List Occ) (n : String) : Option (Option Nat) :=
  ((occs.filter (fun o => o.referenced && o.name == n)).head?).map Occ.loc


/-- Concrete lowered tree `() => ({ [x]: 1 })` — an object literal whose only
property has a computed key that is the bare free identifier `x`. -/
def astComputedKey : Fn :=
  .mk none [] []
    (.cons (.ret (.objE (.cons (.prop (.ident "x" (some 3)) (.lit 1) true false) .nil))) .nil)

/-- Concrete lowered tree `() => x + x` with the two references of the free
variable `x` carrying distinct source locations. -/
def astRepeated : Fn :=
  .mk none [] []
    (.cons (.exprStmt (.bin (.ident "x" (some 10)) (.ident "x" (some 20)))) .nil)

/-- A function with an empty body (no identifier references). -/
def origEmpty : Fn := .mk none [] [] .nil


/-- A function whose body is the single referenced identifier `x` at
location 9. -/
def origSingleX : Fn := .mk none [] [] (.cons (.exprStmt (.ident "x" (some 9))) .nil)

/-- A capture state holding `x` (location 1, location not yet assigned). -/
def stX : CaptureState := { closure := [("x", some 1)], locAssigned := [("x", false)] }

/-- A qualifying occurrence of `x` at location 5. -/
def occX : Occ := ⟨"x", some 5, true, false, false, false, [[]]⟩


/-! ## The directive stripper and the wrapper assembly -/

/-- `removeWorkletDirective` (lines 297–305): `fun.traverse` visits every
`DirectiveLiteral` of the subtree and removes those whose value is "worklet"
and whose `getFunctionParent()` is the processed function itself.  Directive
literals occur only in function bodies, so the literals whose nearest function
parent is the processed function are exactly the entries of its own directive
list; a directive of a nested function has that nested function as its nearest
function parent and is kept. -/
def removeWorkletDirective : Fn → Fn
  | .mk i p dirs body => .mk i p (dirs.filter (fun d => d ≠ "worklet")) body

/-- A statement of the emitted wrapper body.  `anchorDecl lo co` models
`const _e = [new global.Error(), lo, co]`; `closureAssign` models
`<fn>.__closure = { ... }` carrying, per captured binding, the property's key
name, the value node's source location, its `computed` flag and its
`shorthand` flag; `hashAssign`, `initDataAssign`, `stackAssign` and `retStmt`
model the `__workletHash`, `__initData`, `__stackDetails` assignments and the
final `return`. -/
inductive WStmt where
  | anchorDecl (lineOffset : Int) (colOffset : Int)
  | fnDecl (name : String)
  | closureAssign (props : List (String × Option Nat × Bool × Bool))
  | hashAssign (value : Nat)
  | initDataAssign (idName : String)
  | stackAssign
  | retStmt (name : String)
deriving DecidableEq

/-- The configuration `makeWorkletFactory` reads: `isRelease()` (from
`./utils`), `state.opts.omitNativeOnlyData`, `state.opts.relativeSourceLocation`
and the reproducible-version mode of `shouldMockVersion` (lines 307–311). -/
structure FactoryConfig where
  isRelease : Bool
  omitNativeOnlyData : Bool
  relativeSourceLocation : Bool
  mockVersion : Bool
deriving DecidableEq

/-- The observable outcome of `makeWorkletFactory`: the diagnostic line offset,
whether the init-data constant was hoisted (`insertBefore`), the key/value
list of the init-data object literal, the wrapper body statements, and the
wrapper's name and parameter list. -/
structure FactoryResult where
  lineOffset : Int
  initDataEmitted : Bool
  initDataProps : List (String × String)
  statements : List WStmt
  wrapperId : Option String
  wrapperParams : List String
deriving DecidableEq

/-- `makeWorkletFactory` (lines 130–294), from the point where the captured
`variables`, the lowered `funString` and its `sourceMapString` are in hand.
`filename` is `state.file.opts.filename`; `relativized` stands for the
external `path.relative(state.cwd, filename)`; `initDataId` is the generated
uid `_worklet_<hash>_init_data`; `functionName` comes from `makeWorkletName`;
`version` is the package version (replaced by the mock `x.y.z` in
reproducible-version mode). -/
def makeWorkletFactory (cfg : FactoryConfig) (vars : List (String × Option Nat))
    (funString : String) (sourceMapString : Option String) (filename : String)
    (relativized : String) (initDataId : String) (functionName : String)
    (version : String) : FactoryResult :=
  let workletHash := hash (funString.data.map Char.toNat)
  let lineOffset : Int := if vars.length > 0 then 1 - ((vars.length : Int) + 2) else 1
  let location := if cfg.relativeSourceLocation then relativized else filename
  let sourceMapString2 :=
    if !cfg.isRelease && cfg.relativeSourceLocation then
      sourceMapString.map (fun s => s.replace filename location)
    else sourceMapString
  let initDataProps :=
    [("code", funString)] ++
    (if !cfg.isRelease then [("location", location)] else []) ++
    (match sourceMapString2 with
     | some s => [("sourceMap", s)]
     | none => []) ++
    (if !cfg.isRelease then [("version", if cfg.mockVersion then "x.y.z" else version)]
     else [])
  let shouldIncludeInitData := !cfg.omitNativeOnlyData
  let statements : List WStmt :=
    [WStmt.fnDecl functionName,
     WStmt.closureAssign (vars.map (fun v => (v.1, v.2, false, true))),
     WStmt.hashAssign workletHash] ++
    (if shouldIncludeInitData then [WStmt.initDataAssign initDataId] else [])
  let statements2 :=
    if !cfg.isRelease then
      WStmt.anchorDecl lineOffset (-27) :: (statements ++ [WStmt.stackAssign])
    else statements
  { lineOffset := lineOffset
    initDataEmitted := shouldIncludeInitData
    initDataProps := initDataProps
    statements := statements2 ++ [WStmt.retStmt functionName]
    wrapperId := none
    wrapperParams := [] }

/-! ### Arithmetic lemmas relating the JS coercions to plain modular arithmetic -/

lemma toUint32_lt (n : Int) : toUint32 n < 2 ^ 32 := by
  have h : n % (2 ^ 32 : Int) < 2 ^ 32 := Int.emod_lt_of_pos n (by norm_num)
  have h0 : (0 : Int) ≤ n % (2 ^ 32 : Int) := Int.emod_nonneg n (by norm_num)
  unfold toUint32
  omega

lemma toUint32_ofNat (m : Nat) (h : m < 2 ^ 32) : toUint32 (m : Int) = m := by
  unfold toUint32
  rw [Int.emod_eq_of_lt (by positivity) (by exact_mod_cast h)]
  simp

lemma toUint32_toInt32 (n : Int) : toUint32 (toInt32 n) = toUint32 n := by
  unfold toUint32 toInt32
  have h0 : (0 : Int) ≤ n % (2 ^ 32 : Int) := Int.emod_nonneg n (by norm_num)
  have h1 : n % (2 ^ 32 : Int) < 2 ^ 32 := Int.emod_lt_of_pos n (by norm_num)
  by_cases h : n % (2 ^ 32 : Int) < 2 ^ 31
  · simp only [if_pos h]
    omega
  · simp only [if_neg h]
    omega

lemma toUint32_jsXor (a b : Int) :
    toUint32 (jsXor a b) = toUint32 a ^^^ toUint32 b := by
  unfold jsXor
  rw [toUint32_toInt32]
  exact toUint32_ofNat _ (Nat.xor_lt_two_pow (toUint32_lt a) (toUint32_lt b))

set_option maxHeartbeats 1000000 in
lemma toUint32_mul33 (h : Int) : toUint32 (h * 33) = toUint32 h * 33 % 2 ^ 32 := by
  unfold toUint32
  have h0 : (0 : Int) ≤ h % (2 ^ 32 : Int) := Int.emod_nonneg h (by norm_num)
  have h1 : (h * 33) % (2 ^ 32 : Int) = ((h % 2 ^ 32) * 33) % 2 ^ 32 := by
    conv_lhs => rw [Int.mul_emod]
    conv_rhs => rw [Int.mul_emod, Int.emod_emod_of_dvd _ dvd_rfl]
  rw [h1]
  have h2 : h % (2 ^ 32 : Int) < 2 ^ 32 := Int.emod_lt_of_pos h (by norm_num)
  generalize hg : h % (2 ^ 32 : Int) = a at h0 h2 ⊢
  omega

/-- Truncating to `n` bits commutes with xor against a value below `2^n`. -/
lemma xor_mod_two_pow (x c n : Nat) (hc : c < 2 ^ n) :
    (x % 2 ^ n) ^^^ c = (x ^^^ c) % 2 ^ n := by
  apply Nat.eq_of_testBit_eq
  intro i
  rw [Nat.testBit_xor, Nat.testBit_mod_two_pow, Nat.testBit_mod_two_pow, Nat.testBit_xor]
  by_cases hi : i < n
  · simp [hi]
  · have hcbit : c.testBit i = false := by
      apply Nat.testBit_lt_two_pow
      exact lt_of_lt_of_le hc (Nat.pow_le_pow_right (by norm_num) (by omega))
    simp [hi, hcbit]

/-- The accumulator of the implementation, read back as an unsigned 32-bit
value, agrees with the accumulator of the specification. -/
lemma toUint32_hashAcc (seed : Nat) (hseed : seed < 2 ^ 32) (codes : List Nat)
    (hcodes : ∀ c ∈ codes, c < 2 ^ 32) :
    toUint32 (hashAcc (seed : Int) codes) = specHashAcc seed codes % 2 ^ 32 := by
  induction codes with
  | nil =>
    show toUint32 (seed : Int) = seed % 2 ^ 32
    rw [toUint32_ofNat seed hseed]
    omega
  | cons c rest ih =>
    have hc : c < 2 ^ 32 := hcodes c (List.mem_cons_self c rest)
    have hrest : ∀ x ∈ rest, x < 2 ^ 32 := fun x hx => hcodes x (List.mem_cons_of_mem c hx)
    have ih' := ih hrest
    show toUint32 (jsXor (hashAcc (seed : Int) rest * 33) (c : Int))
        = (specHashAcc seed rest * 33 ^^^ c) % 2 ^ 32 % 2 ^ 32
    rw [toUint32_jsXor, toUint32_mul33, toUint32_ofNat c hc, ih']
    have hmul : specHashAcc seed rest % 2 ^ 32 * 33 % 2 ^ 32
        = specHashAcc seed rest * 33 % 2 ^ 32 := by
      conv_rhs => rw [Nat.mul_mod]
      conv_lhs => rw [Nat.mul_mod, Nat.mod_mod_of_dvd _ dvd_rfl]
    rw [hmul, xor_mod_two_pow _ c 32 hc]
    omega

/-- C2: the implemented hash computes exactly what the specification
describes: two accumulators seeded 5381 and 52711, a last-to-first scan with
step `(acc * 33) xor charCode` truncated to 32 bits, both masked to the
unsigned 32-bit range, combined as `hash1 * 4096 + hash2`. Code units of a
JavaScript string are below `2^16`. -/
theorem hash_eq_specHash (codes : List Nat) (h : ∀ c ∈ codes, c < 2 ^ 16) :
    hash codes = specHash codes := by
  have h32 : ∀ c ∈ codes, c < 2 ^ 32 := fun c hc => lt_of_lt_of_le (h c hc) (by norm_num)
  unfold hash specHash
  have e1 : (5381 : Int) = ((5381 : Nat) : Int) := by norm_num
  have e2 : (52711 : Int) = ((52711 : Nat) : Int) := by norm_num
  rw [e1, e2, toUint32_hashAcc 5381 (by norm_num) codes h32,
    toUint32_hashAcc 52711 (by norm_num) codes h32]

/-- Witness for C2 at the concrete string "hi" (code units 104, 105). -/
theorem hash_eq_specHash_witness :
    (∀ c ∈ [104, 105], c < 2 ^ 16) ∧ hash [104, 105] = specHash [104, 105] :=
  ⟨by decide, hash_eq_specHash [104, 105] (by decide)⟩


/-! ### Lemmas about the naming resolver -/

lemma identChar_of_digit (c : Char) (h : isDigitChar c = true) : isIdentChar c = true := by
  unfold isIdentChar
  rw [h]
  simp

lemma digit_ne_dash (c : Char) (h : isDigitChar c = true) : c ≠ '-' := by
  intro he
  subst he
  exact absurd h (by decide)

lemma toUpper_digit (c : Char) (h : isDigitChar c = true) : c.toUpper = c := by
  unfold isDigitChar at h
  simp only [Bool.and_eq_true, decide_eq_true_eq] at h
  unfold Char.toUpper
  rw [if_neg]
  omega

lemma camelGo_digits (d : List Char) (hd : ∀ c ∈ d, isDigitChar c = true) :
    ∀ sep, camelGo sep d = d := by
  induction d with
  | nil => intro sep; rfl
  | cons c rest ih =>
    intro sep
    have hc := hd c (List.mem_cons_self c rest)
    have ihf := ih (fun x hx => hd x (List.mem_cons_of_mem c hx)) false
    cases sep with
    | false =>
      rw [camelGo, if_neg (digit_ne_dash c hc)]
      simp only [Bool.false_eq_true, if_false]
      rw [ihf]
    | true =>
      rw [camelGo, if_neg (digit_ne_dash c hc)]
      simp only [if_true]
      rw [toUpper_digit c hc, ihf]

lemma camelGo_append_digits (d : List Char) (hd : ∀ c ∈ d, isDigitChar c = true) :
    ∀ (l : List Char) (sep : Bool), camelGo sep (l ++ d) = camelGo sep l ++ d := by
  intro l
  induction l with
  | nil =>
    intro sep
    show camelGo sep d = camelGo sep [] ++ d
    rw [camelGo_digits d hd sep]
    rfl
  | cons c rest ih =>
    intro sep
    show camelGo sep (c :: (rest ++ d)) = camelGo sep (c :: rest) ++ d
    rw [camelGo, camelGo]
    by_cases hc : c = '-'
    · rw [if_pos hc, if_pos hc, ih true]
    · rw [if_neg hc, if_neg hc]
      cases sep with
      | false => simp only [Bool.false_eq_true, if_false]; rw [List.cons_append, ih false]
      | true => simp only [if_true]; rw [List.cons_append, ih false]

lemma camel_append_digits (d : List Char) (hd : ∀ c ∈ d, isDigitChar c = true)
    (l : List Char) : camel (l ++ d) = camel l ++ d :=
  camelGo_append_digits d hd l false

lemma reserved_all_end_nondigit :
    reservedWords.all (fun w => w.data.getLast?.elim true (fun c => !isDigitChar c)) = true := by
  decide

lemma reserved_not_contains (s : List Char) (c : Char) (hlast : s.getLast? = some c)
    (hc : isDigitChar c = true) : reservedWords.contains (String.mk s) = false := by
  by_contra hcon
  have hmem : String.mk s ∈ reservedWords := by
    have h1 : reservedWords.contains (String.mk s) = true := by
      cases h2 : reservedWords.contains (String.mk s) with
      | true => rfl
      | false => exact absurd h2 hcon
    exact List.mem_of_elem_eq_true h1
  have hall := List.all_eq_true.mp reserved_all_end_nondigit _ hmem
  have hdata : (String.mk s).data = s := rfl
  rw [hdata, hlast] at hall
  simp only [Option.elim] at hall
  rw [hc] at hall
  exact absurd hall (by decide)

lemma isValidIdentifier_append_digits (x d : List Char) (hne : d ≠ [])
    (hd : ∀ c ∈ d, isDigitChar c = true) :
    isValidIdentifier (x ++ d) = isIdentShaped x := by
  have hlast : (x ++ d).getLast? = d.getLast? := by
    rw [List.getLast?_append]
    cases hgl : d.getLast? with
    | some c => rfl
    | none => exact absurd (List.getLast?_eq_none_iff.mp hgl) hne
  obtain ⟨c, hc⟩ : ∃ c, d.getLast? = some c := by
    cases hgl : d.getLast? with
    | some c => exact ⟨c, rfl⟩
    | none => exact absurd (List.getLast?_eq_none_iff.mp hgl) hne
  have hcd : isDigitChar c = true := hd c (List.mem_of_mem_getLast? hc)
  have hres : reservedWords.contains (String.mk (x ++ d)) = false :=
    reserved_not_contains _ c (by rw [hlast, hc]) hcd
  unfold isValidIdentifier
  rw [hres]
  cases x with
  | nil =>
    cases d with
    | nil => exact absurd rfl hne
    | cons c0 rest =>
      have hc0 : isDigitChar c0 = true := hd c0 (List.mem_cons_self c0 rest)
      show (isIdentShaped (c0 :: rest) && !false) = isIdentShaped ([] : List Char)
      simp only [isIdentShaped]
      have hstart : identStart c0 = false := by
        unfold isDigitChar at hc0
        simp only [Bool.and_eq_true, decide_eq_true_eq] at hc0
        unfold identStart isAlphaChar
        simp only [Bool.or_eq_false_iff, Bool.and_eq_false_iff, decide_eq_false_iff_not,
          decide_eq_true_eq, not_le]
        omega
      rw [hstart]
      simp
  | cons h t =>
    show (isIdentShaped (h :: (t ++ d)) && !false) = isIdentShaped (h :: t)
    simp only [isIdentShaped]
    rw [List.all_append]
    have : d.all isIdentChar = true := List.all_eq_true.mpr
      (fun c hcm => identChar_of_digit c (hd c hcm))
    rw [this]
    simp

lemma toIdentifierL_append_digits (p d : List Char)
    (hp : p.any (fun c => isIdentChar c && !isStripChar c) = true)
    (hne : d ≠ []) (hd : ∀ c ∈ d, isDigitChar c = true) :
    toIdentifierL (p ++ d) = toIdentPrefix p ++ d := by
  have hmap : (p ++ d).map sanitizeChar = p.map sanitizeChar ++ d := by
    rw [List.map_append]
    congr 1
    have : ∀ c ∈ d, sanitizeChar c = c := by
      intro c hc
      unfold sanitizeChar
      rw [if_pos (identChar_of_digit c (hd c hc))]
    calc d.map sanitizeChar = d.map id := List.map_congr_left this
      _ = d := List.map_id d
  obtain ⟨c, hcp, hcprop⟩ := List.any_eq_true.mp hp
  simp only [Bool.and_eq_true, Bool.not_eq_true'] at hcprop
  have hdropne : (p.map sanitizeChar).dropWhile isStripChar ≠ [] := by
    intro hnil
    have := List.dropWhile_eq_nil_iff.mp hnil (sanitizeChar c)
      (List.mem_map_of_mem sanitizeChar hcp)
    unfold sanitizeChar at this
    rw [if_pos hcprop.1] at this
    rw [hcprop.2] at this
    exact absurd this (by decide)
  have hdrop : (p.map sanitizeChar ++ d).dropWhile isStripChar
      = (p.map sanitizeChar).dropWhile isStripChar ++ d := by
    rw [List.dropWhile_append]
    rw [if_neg]
    intro hemp
    exact hdropne (List.isEmpty_iff.mp hemp)
  simp only [toIdentifierL, toIdentPrefix]
  rw [hmap, hdrop, camel_append_digits d hd _,
    isValidIdentifier_append_digits _ d hne hd]
  by_cases hshaped : isIdentShaped (camel ((p.map sanitizeChar).dropWhile isStripChar))
  · rw [if_pos hshaped, if_pos hshaped, if_neg]
    intro hnil
    exact hne (List.append_eq_nil.mp hnil).2
  · rw [if_neg hshaped, if_neg hshaped, if_neg (by simp)]
    rfl

lemma decDigitsAux_fuel (n : Nat) : ∀ fuel1 fuel2, n < fuel1 → n < fuel2 →
    decDigitsAux fuel1 n = decDigitsAux fuel2 n := by
  induction n using Nat.strong_induction_on with
  | _ n ih =>
    intro fuel1 fuel2 h1 h2
    match fuel1, fuel2 with
    | f1 + 1, f2 + 1 =>
      show decDigitsAux (f1 + 1) n = decDigitsAux (f2 + 1) n
      rw [decDigitsAux, decDigitsAux]
      by_cases h : n < 10
      · rw [if_pos h, if_pos h]
      · rw [if_neg h, if_neg h]
        have hrec := ih (n / 10) (Nat.div_lt_self (by omega) (by omega)) f1 f2
          (by omega) (by omega)
        rw [hrec]

lemma decDigits_lt_ten (n : Nat) (h : n < 10) : decDigits n = [Char.ofNat (48 + n)] := by
  show decDigitsAux (n + 1) n = _
  rw [decDigitsAux, if_pos h]

lemma decDigits_ge_ten (n : Nat) (h : ¬ n < 10) :
    decDigits n = decDigits (n / 10) ++ [Char.ofNat (48 + n % 10)] := by
  show decDigitsAux (n + 1) n = decDigitsAux (n / 10 + 1) (n / 10) ++ _
  rw [decDigitsAux, if_neg h]
  rw [decDigitsAux_fuel (n / 10) n (n / 10 + 1) (by omega) (by omega)]

lemma decDigits_ne_nil (n : Nat) : decDigits n ≠ [] := by
  by_cases h : n < 10
  · rw [decDigits_lt_ten n h]
    simp
  · rw [decDigits_ge_ten n h]
    simp

lemma digitChar_digit : ∀ k, k < 10 → isDigitChar (Char.ofNat (48 + k)) = true := by decide

lemma digitChar_inj : ∀ a, a < 10 → ∀ b, b < 10 →
    Char.ofNat (48 + a) = Char.ofNat (48 + b) → a = b := by decide

lemma decDigits_all_digit (n : Nat) : ∀ c ∈ decDigits n, isDigitChar c = true := by
  induction n using Nat.strong_induction_on with
  | _ n ih =>
    by_cases h : n < 10
    · rw [decDigits_lt_ten n h]
      intro c hc
      rw [List.mem_singleton] at hc
      subst hc
      exact digitChar_digit n h
    · rw [decDigits_ge_ten n h]
      intro c hc
      rcases List.mem_append.mp hc with hc1 | hc2
      · exact ih (n / 10) (Nat.div_lt_self (by omega) (by omega)) c hc1
      · rw [List.mem_singleton] at hc2
        subst hc2
        exact digitChar_digit (n % 10) (Nat.mod_lt n (by omega))

lemma decDigits_inj (m : Nat) : ∀ n, decDigits m = decDigits n → m = n := by
  induction m using Nat.strong_induction_on with
  | _ m ih =>
    intro n h
    by_cases hm : m < 10 <;> by_cases hn : n < 10
    · rw [decDigits_lt_ten m hm, decDigits_lt_ten n hn] at h
      exact digitChar_inj m hm n hn (List.singleton_inj.mp h)
    · rw [decDigits_lt_ten m hm, decDigits_ge_ten n hn] at h
      have hlen := congrArg List.length h
      simp only [List.length_append, List.length_singleton] at hlen
      have hpos : 0 < (decDigits (n / 10)).length :=
        List.length_pos.mpr (decDigits_ne_nil (n / 10))
      omega
    · rw [decDigits_ge_ten m hm, decDigits_lt_ten n hn] at h
      have hlen := congrArg List.length h
      simp only [List.length_append, List.length_singleton] at hlen
      have hpos : 0 < (decDigits (m / 10)).length :=
        List.length_pos.mpr (decDigits_ne_nil (m / 10))
      omega
    · rw [decDigits_ge_ten m hm, decDigits_ge_ten n hn] at h
      have hrev := congrArg List.reverse h
      rw [List.reverse_append, List.reverse_append] at hrev
      simp only [List.reverse_singleton, List.singleton_append, List.cons.injEq] at hrev
      have hlow : m % 10 = n % 10 :=
        digitChar_inj (m % 10) (Nat.mod_lt m (by omega)) (n % 10) (Nat.mod_lt n (by omega))
          hrev.1
      have hhigh : decDigits (m / 10) = decDigits (n / 10) :=
        List.reverse_injective hrev.2
      have := ih (m / 10) (Nat.div_lt_self (by omega) (by omega)) (n / 10) hhigh
      omega

lemma namePrefix_any (kind : FunKind) (filename : Option String)
    (h : (sourceOf filename).data.any (fun c => isIdentChar c && !isStripChar c) = true) :
    (namePrefix kind filename).data.any (fun c => isIdentChar c && !isStripChar c) = true := by
  unfold namePrefix
  cases kind with
  | objectMethod key =>
    cases key with
    | some k =>
      show ((k ++ "_" ++ sourceOf filename).data.any _) = true
      have hd : (k ++ "_" ++ sourceOf filename).data
          = (k ++ "_").data ++ (sourceOf filename).data := rfl
      rw [hd, List.any_append, h]
      simp
    | none => exact h
  | functionDeclaration id =>
    cases id with
    | some i =>
      show ((i ++ "_" ++ sourceOf filename).data.any _) = true
      have hd : (i ++ "_" ++ sourceOf filename).data
          = (i ++ "_").data ++ (sourceOf filename).data := rfl
      rw [hd, List.any_append, h]
      simp
    | none => exact h
  | functionExpression id =>
    cases id with
    | some i =>
      show ((i ++ "_" ++ sourceOf filename).data.any _) = true
      have hd : (i ++ "_" ++ sourceOf filename).data
          = (i ++ "_").data ++ (sourceOf filename).data := rfl
      rw [hd, List.any_append, h]
      simp
    | none => exact h
  | arrowFunctionExpression => exact h

/-- C6 (amended): every call to the naming resolver renders the current
per-file counter into the decimal suffix of the resolved name and returns the
counter incremented by one; and provided the derived source tag contains an
identifier character that the sanitizer cannot strip (a letter, `$` or `_` —
true of every ordinary file name), the resolved name is exactly a
counter-independent prefix followed by the decimal counter, so two worklets
compiled from the same file with distinct counter values always receive
different resolved names, differing only in the counter suffix.  (The original
claim, without the proviso on the source tag, fails: see the counterexample on
the digits-only file name "123".) -/
theorem makeWorkletName_spec (kind : FunKind) (filename : Option String)
    (hsrc : (sourceOf filename).data.any (fun c => isIdentChar c && !isStripChar c) = true) :
    (∀ n, (makeWorkletName kind filename n).2 = n + 1) ∧
    (∀ n, (makeWorkletName kind filename n).1
        = String.mk (toIdentPrefix (namePrefix kind filename).data ++ decDigits n)) ∧
    (∀ n1 n2, n1 ≠ n2 →
        (makeWorkletName kind filename n1).1 ≠ (makeWorkletName kind filename n2).1) := by
  have hp := namePrefix_any kind filename hsrc
  have key : ∀ n, (makeWorkletName kind filename n).1
      = String.mk (toIdentPrefix (namePrefix kind filename).data ++ decDigits n) := by
    intro n
    show toIdentifier (namePrefix kind filename ++ decStr n) = _
    unfold toIdentifier
    congr 1
    have hdata : (namePrefix kind filename ++ decStr n).data
        = (namePrefix kind filename).data ++ decDigits n := rfl
    rw [hdata]
    exact toIdentifierL_append_digits _ _ hp (decDigits_ne_nil n) (decDigits_all_digit n)
  refine ⟨fun n => rfl, key, ?_⟩
  intro n1 n2 hne heq
  rw [key n1, key n2] at heq
  have h2 : toIdentPrefix (namePrefix kind filename).data ++ decDigits n1
      = toIdentPrefix (namePrefix kind filename).data ++ decDigits n2 :=
    congrArg String.data heq
  exact hne (decDigits_inj n1 n2 (List.append_cancel_left h2))

/-- Witness for C6 at the file `foo.ts`: the source tag qualifies, the counter
is post-incremented, and counters 0 and 1 give different names. -/
theorem makeWorkletName_spec_witness :
    ((sourceOf (some "foo.ts")).data.any (fun c => isIdentChar c && !isStripChar c) = true) ∧
    (makeWorkletName .arrowFunctionExpression (some "foo.ts") 0).2 = 1 ∧
    (makeWorkletName .arrowFunctionExpression (some "foo.ts") 0).1
      ≠ (makeWorkletName .arrowFunctionExpression (some "foo.ts") 1).1 := by
  refine ⟨by decide, ?_, ?_⟩
  · exact (makeWorkletName_spec .arrowFunctionExpression (some "foo.ts") (by decide)).1 0
  · exact (makeWorkletName_spec .arrowFunctionExpression (some "foo.ts") (by decide)).2.2
      0 1 (by decide)

/-- C6 counterexample: on the digits-only file name "123" the sanitizer erases
the entire suffix, counter included, so two distinct unnamed worklets from the
same file receive the same resolved name (both collapse to "_"). -/
theorem makeWorkletName_collision_cex :
    (0 : Nat) ≠ 1 ∧
    (makeWorkletName .arrowFunctionExpression (some "123") 0).1
      = (makeWorkletName .arrowFunctionExpression (some "123") 1).1 := by
  constructor
  · decide
  · rfl

/-! ### Bounds of the hash (C10) -/

/-- C10 (amended): the hash is a natural number bounded by
`(2^32−1)*4096 + (2^32−1)`; that bound exceeds `2^44` (it is `2^44 + 2^32 −
4097`), so the result is strictly below `2^44 + 2^32` — and in particular below
`2^53`, hence exactly representable — but not always below `2^44`; the empty
string hashes to `5381 * 4096 + 52711`. -/
theorem hash_bounds (codes : List Nat) :
    hash codes ≤ (2 ^ 32 - 1) * 4096 + (2 ^ 32 - 1) ∧
    hash codes < 2 ^ 44 + 2 ^ 32 ∧
    hash [] = 5381 * 4096 + 52711 := by
  have h1 := toUint32_lt (hashAcc 5381 codes)
  have h2 := toUint32_lt (hashAcc 52711 codes)
  unfold hash
  refine ⟨by omega, by omega, ?_⟩
  rfl

/-- C10 counterexample: the string "t97lp3T" (code units 116, 57, 55, 108,
112, 51, 84) hashes to 17595026960966 ≥ 2^44, refuting the claimed strict
`2^44` bound. -/
theorem hash_exceeds_two_pow_44_cex :
    ¬ hash [116, 57, 55, 108, 112, 51, 84] < 2 ^ 44 := by decide

/-! ### Lemmas about the JavaScript map model -/

lemma mapGet_mapSet {A : Type} (m : List (String × A)) (k : String) (v : A) (n : String) :
    mapGet (mapSet m k v) n = if k = n then some v else mapGet m n := by
  induction m with
  | nil => simp [mapSet, mapGet]
  | cons p rest ih =>
    obtain ⟨k0, v0⟩ := p
    simp only [mapSet, mapGet]
    by_cases h0 : k0 = k
    · subst h0
      simp only [if_pos rfl, mapGet]
      by_cases h : k0 = n
      · rw [if_pos h, if_pos h]
      · rw [if_neg h, if_neg h, if_neg h]
    · rw [if_neg h0]
      simp only [mapGet]
      by_cases hn : k0 = n
      · have hk : ¬ k = n := by
          intro hkn
          exact h0 (by rw [hn, hkn])
        rw [if_pos hn, if_pos hn, if_neg hk]
      · rw [if_neg hn, if_neg hn, ih]

lemma mapSet_map_fst_mem {A : Type} (m : List (String × A)) (k : String) (v : A)
    (h : k ∈ m.map Prod.fst) : (mapSet m k v).map Prod.fst = m.map Prod.fst := by
  induction m with
  | nil => exact absurd h (by simp)
  | cons p rest ih =>
    obtain ⟨k0, v0⟩ := p
    rw [mapSet]
    by_cases h0 : k0 = k
    · rw [if_pos h0]
      simp [h0]
    · rw [if_neg h0]
      have hk : k ∈ rest.map Prod.fst := by
        rcases List.mem_cons.mp h with h1 | h1
        · exact absurd h1.symm h0
        · exact h1
      simp only [List.map_cons]
      rw [ih hk]

lemma mapSet_map_fst_not_mem {A : Type} (m : List (String × A)) (k : String) (v : A)
    (h : k ∉ m.map Prod.fst) : (mapSet m k v).map Prod.fst = m.map Prod.fst ++ [k] := by
  induction m with
  | nil => rfl
  | cons p rest ih =>
    obtain ⟨k0, v0⟩ := p
    rw [mapSet]
    by_cases h0 : k0 = k
    · exact absurd (by simp [h0]) h
    · rw [if_neg h0]
      have hk : k ∉ rest.map Prod.fst := fun hm => h (by simp [hm])
      simp only [List.map_cons, List.cons_append]
      rw [ih hk]

lemma mapGet_eq_none {A : Type} (m : List (String × A)) (k : String) :
    mapGet m k = none ↔ k ∉ m.map Prod.fst := by
  induction m with
  | nil => simp [mapGet]
  | cons p rest ih =>
    obtain ⟨k0, v0⟩ := p
    rw [mapGet]
    by_cases h : k0 = k
    · rw [if_pos h]
      simp [h]
    · rw [if_neg h]
      simp only [List.map_cons, List.mem_cons]
      rw [ih]
      constructor
      · intro hn hc
        rcases hc with hc | hc
        · exact h hc.symm
        · exact hn hc
      · intro hn
        intro hc
        exact hn (Or.inr hc)

lemma mapGet_isSome_mem {A : Type} (m : List (String × A)) (k : String) (v : A)
    (h : mapGet m k = some v) : k ∈ m.map Prod.fst := by
  by_contra hc
  rw [← mapGet_eq_none m k] at hc
  rw [h] at hc
  exact Option.noConfusion hc

/-! ### The two visitors, characterized -/

set_option linter.unnecessarySeqFocus false in
lemma visitCapture_eq (g : List String) (own : Option String) (st : CaptureState) (o : Occ) :
    visitCapture g own st o =
      if specCaptures g own o then
        { closure := mapSet st.closure o.name o.loc
          locAssigned := mapSet st.locAssigned o.name false }
      else st := by
  cases hr : o.referenced <;> cases hg : g.contains o.name <;>
    cases ho : own == some o.name <;> cases hm : o.memberPropNonComputed <;>
    cases hk : o.objKey <;> cases hs : o.scopes.any (fun s => s.contains o.name) <;>
    simp_all [visitCapture, specCaptures, beq_iff_eq] <;> try
    (rw [if_neg]
     intro hall
     obtain ⟨x, hx1, hx2⟩ := hs
     exact hall x hx1 hx2)

lemma contains_eq_of_mem_iff (s1 s2 : List String) (h : ∀ x, x ∈ s1 ↔ x ∈ s2) (n : String) :
    s1.contains n = s2.contains n := by
  cases hb : s2.contains n with
  | true => exact List.elem_iff.mpr ((h n).mpr (List.elem_iff.mp hb))
  | false =>
    cases hb1 : s1.contains n with
    | false => rfl
    | true =>
      have hmem := (h n).mp (List.elem_iff.mp hb1)
      have h2 : s2.contains n = true := List.elem_iff.mpr hmem
      rw [h2] at hb
      exact Bool.noConfusion hb

lemma dedupFirstAux_congr (l : List String) : ∀ (s1 s2 : List String),
    (∀ x, x ∈ s1 ↔ x ∈ s2) → dedupFirstAux s1 l = dedupFirstAux s2 l := by
  induction l with
  | nil => intro s1 s2 h; rfl
  | cons n rest ih =>
    intro s1 s2 h
    rw [dedupFirstAux, dedupFirstAux, contains_eq_of_mem_iff s1 s2 h n]
    by_cases hb : s2.contains n = true
    · rw [if_pos hb, if_pos hb]
      exact ih s1 s2 h
    · rw [if_neg hb, if_neg hb, ih (n :: s1) (n :: s2) (fun x => by
        simp only [List.mem_cons]
        rw [h x])]

lemma mem_dedupFirstAux (l : List String) : ∀ (seen : List String) (n : String),
    n ∈ dedupFirstAux seen l ↔ (n ∈ l ∧ n ∉ seen) := by
  induction l with
  | nil => intro seen n; simp [dedupFirstAux]
  | cons m rest ih =>
    intro seen n
    rw [dedupFirstAux]
    by_cases hb : seen.contains m = true
    · rw [if_pos hb, ih seen n]
      have hmem : m ∈ seen := List.elem_iff.mp hb
      constructor
      · rintro ⟨h1, h2⟩
        exact ⟨List.mem_cons_of_mem m h1, h2⟩
      · rintro ⟨h1, h2⟩
        rcases List.mem_cons.mp h1 with h3 | h3
        · subst h3
          exact absurd hmem h2
        · exact ⟨h3, h2⟩
    · rw [if_neg hb]
      have hmem : m ∉ seen := fun hx => hb (List.elem_iff.mpr hx)
      rw [List.mem_cons, ih (m :: seen) n]
      constructor
      · rintro (h1 | ⟨h2, h3⟩)
        · subst h1
          exact ⟨List.mem_cons_self _ _, hmem⟩
        · exact ⟨List.mem_cons_of_mem m h2, fun hx => h3 (List.mem_cons_of_mem m hx)⟩
      · rintro ⟨h1, h2⟩
        rcases List.mem_cons.mp h1 with h3 | h3
        · exact Or.inl h3
        · by_cases hnm : n = m
          · exact Or.inl hnm
          · exact Or.inr ⟨h3, fun hx => (List.mem_cons.mp hx).elim hnm h2⟩

/-- The closure keys accumulated by the first traversal: the previously seen
keys followed by the qualifying occurrence names in first-discovery order. -/
lemma foldl_visitCapture_keys (g : List String) (own : Option String) (occs : List Occ) :
    ∀ st : CaptureState,
    ((occs.foldl (visitCapture g own) st).closure).map Prod.fst
      = st.closure.map Prod.fst ++
        dedupFirstAux (st.closure.map Prod.fst)
          ((occs.filter (specCaptures g own)).map Occ.name) := by
  induction occs with
  | nil => intro st; simp [dedupFirstAux]
  | cons o rest ih =>
    intro st
    rw [List.foldl_cons, visitCapture_eq]
    by_cases hq : specCaptures g own o = true
    · rw [if_pos hq, List.filter_cons_of_pos hq, List.map_cons]
      rw [ih]
      dsimp only
      by_cases hmem : o.name ∈ st.closure.map Prod.fst
      · have hcb : (st.closure.map Prod.fst).contains o.name = true := List.elem_iff.mpr hmem
        rw [mapSet_map_fst_mem st.closure o.name o.loc hmem, dedupFirstAux, if_pos hcb]
      · have hcb : (st.closure.map Prod.fst).contains o.name = false := by
          cases hx : (st.closure.map Prod.fst).contains o.name with
          | false => rfl
          | true => exact absurd (List.elem_iff.mp hx) hmem
        rw [mapSet_map_fst_not_mem st.closure o.name o.loc hmem, dedupFirstAux, hcb]
        rw [if_neg (by simp)]
        rw [dedupFirstAux_congr _ (st.closure.map Prod.fst ++ [o.name])
          (o.name :: st.closure.map Prod.fst) (fun x => by
            simp only [List.mem_append, List.mem_singleton, List.mem_cons]
            tauto)]
        simp [List.append_assoc]
    · rw [if_neg hq, List.filter_cons_of_neg hq]
      exact ih st

lemma firstRefLoc_cons (o : Occ) (rest : List Occ) (n : String) :
    firstRefLoc (o :: rest) n
      = if (o.referenced && o.name == n) = true then some o.loc else firstRefLoc rest n := by
  unfold firstRefLoc
  simp only [List.filter_cons]
  by_cases h : (o.referenced && o.name == n) = true
  · simp [h]
  · simp [h]

lemma getD_false_eq_true (x : Option Bool) : x.getD false = true ↔ x = some true := by
  cases x with
  | none => simp
  | some b => cases b <;> simp

/-- Frame specification of the location-assignment traversal: it preserves the
key list (hence membership and order) of the closure map; entries whose
location is already assigned are left untouched; and every captured,
not-yet-assigned name receives the location of its first referenced occurrence
(being marked assigned), or keeps its value when no referenced occurrence
exists. -/
lemma visitLoc_fold_spec (occs : List Occ) : ∀ st : CaptureState,
    (((occs.foldl visitLoc st).closure).map Prod.fst = st.closure.map Prod.fst) ∧
    (∀ n, mapGet st.locAssigned n = some true →
        mapGet (occs.foldl visitLoc st).closure n = mapGet st.closure n ∧
        mapGet (occs.foldl visitLoc st).locAssigned n = some true) ∧
    (∀ n v, mapGet st.closure n = some v → ¬ mapGet st.locAssigned n = some true →
        (firstRefLoc occs n = none → mapGet (occs.foldl visitLoc st).closure n = some v) ∧
        (∀ l, firstRefLoc occs n = some l →
            mapGet (occs.foldl visitLoc st).closure n = some l ∧
            mapGet (occs.foldl visitLoc st).locAssigned n = some true)) := by
  induction occs with
  | nil =>
    intro st
    refine ⟨rfl, fun n h => ⟨rfl, h⟩, fun n v hv ha => ⟨fun _ => hv, fun l hl => ?_⟩⟩
    exact absurd hl (by simp [firstRefLoc])
  | cons o rest ih =>
    intro st
    rw [List.foldl_cons]
    by_cases hr : o.referenced = true
    case neg =>
      have hskip : visitLoc st o = st := by
        unfold visitLoc
        simp [hr]
      rw [hskip]
      refine ⟨(ih st).1, (ih st).2.1, fun n v hv ha => ?_⟩
      have hcond : (o.referenced && o.name == n) = false := by
        simp [hr]
      rw [firstRefLoc_cons, hcond]
      simp only [Bool.false_eq_true, if_false]
      exact (ih st).2.2 n v hv ha
    case pos =>
      cases hget : mapGet st.closure o.name with
      | none =>
        have hskip : visitLoc st o = st := by
          unfold visitLoc
          rw [hget]
          simp [hr]
        rw [hskip]
        refine ⟨(ih st).1, (ih st).2.1, fun n v hv ha => ?_⟩
        have hne : ¬ o.name = n := by
          intro he
          rw [he, hv] at hget
          exact Option.noConfusion hget
        have hcond : (o.referenced && o.name == n) = false := by
          simp [beq_eq_false_iff_ne, hne]
        rw [firstRefLoc_cons, hcond]
        simp only [Bool.false_eq_true, if_false]
        exact (ih st).2.2 n v hv ha
      | some w =>
        by_cases hass : (mapGet st.locAssigned o.name).getD false = true
        · have hskip : visitLoc st o = st := by
            unfold visitLoc
            rw [hget]
            simp [hr, hass]
          rw [hskip]
          have hassS : mapGet st.locAssigned o.name = some true :=
            (getD_false_eq_true _).mp hass
          refine ⟨(ih st).1, (ih st).2.1, fun n v hv ha => ?_⟩
          have hne : ¬ o.name = n := by
            intro he
            rw [he] at hassS
            exact ha hassS
          have hcond : (o.referenced && o.name == n) = false := by
            simp [beq_eq_false_iff_ne, hne]
          rw [firstRefLoc_cons, hcond]
          simp only [Bool.false_eq_true, if_false]
          exact (ih st).2.2 n v hv ha
        · have hstep : visitLoc st o =
              { closure := mapSet st.closure o.name o.loc
                locAssigned := mapSet st.locAssigned o.name true } := by
            unfold visitLoc
            rw [hget]
            simp [hr, hass]
          rw [hstep]
          set st2 : CaptureState :=
            { closure := mapSet st.closure o.name o.loc
              locAssigned := mapSet st.locAssigned o.name true } with hst2
          have hkeys : st2.closure.map Prod.fst = st.closure.map Prod.fst := by
            rw [hst2]
            exact mapSet_map_fst_mem st.closure o.name o.loc (mapGet_isSome_mem _ _ w hget)
          refine ⟨?_, ?_, ?_⟩
          · rw [(ih st2).1, hkeys]
          · intro n hn
            have hne : ¬ o.name = n := by
              intro he
              rw [← he] at hn
              exact hass ((getD_false_eq_true _).mpr hn)
            have hcl : mapGet st2.closure n = mapGet st.closure n := by
              rw [hst2]
              dsimp only
              rw [mapGet_mapSet, if_neg hne]
            have hla : mapGet st2.locAssigned n = some true := by
              rw [hst2]
              dsimp only
              rw [mapGet_mapSet, if_neg hne]
              exact hn
            have := (ih st2).2.1 n hla
            exact ⟨by rw [this.1, hcl], this.2⟩
          · intro n v hv ha
            by_cases hne : o.name = n
            · subst hne
              have hcond : (o.referenced && o.name == o.name) = true := by
                simp [hr]
              rw [firstRefLoc_cons, hcond, if_pos rfl]
              have hla : mapGet st2.locAssigned o.name = some true := by
                rw [hst2]
                dsimp only
                rw [mapGet_mapSet, if_pos rfl]
              have hcl : mapGet st2.closure o.name = some o.loc := by
                rw [hst2]
                dsimp only
                rw [mapGet_mapSet, if_pos rfl]
              have hpres := (ih st2).2.1 o.name hla
              refine ⟨fun hno => Option.noConfusion hno, fun l hl => ?_⟩
              have hlo : l = o.loc := by
                injection hl with hl2
                exact hl2.symm
              subst hlo
              exact ⟨by rw [hpres.1, hcl], hpres.2⟩
            · have hcond : (o.referenced && o.name == n) = false := by
                simp [beq_eq_false_iff_ne, hne]
              rw [firstRefLoc_cons, hcond]
              simp only [Bool.false_eq_true, if_false]
              have hcl : mapGet st2.closure n = some v := by
                rw [hst2]
                dsimp only
                rw [mapGet_mapSet, if_neg hne]
                exact hv
              have hla : ¬ mapGet st2.locAssigned n = some true := by
                rw [hst2]
                dsimp only
                rw [mapGet_mapSet, if_neg hne]
                exact ha
              exact (ih st2).2.2 n v hcl hla

/-- Shared helper: the names of the returned captured-bindings array are the
qualifying occurrence names of the lowered tree in first-discovery order. -/
lemma makeArray_keys (globals : List String) (ast origFun : Fn) :
    (makeArrayFromCapturedBindings globals ast origFun).map Prod.fst
      = dedupFirst (((fnOccs [[]] ast).filter (specCaptures globals origFun.id)).map Occ.name) := by
  unfold makeArrayFromCapturedBindings
  dsimp only
  rw [(visitLoc_fold_spec (fnOccs [[]] origFun) _).1, foldl_visitCapture_keys]
  rfl

/-- C1 (amended): exactly one CapturedBinding exists per name that has a
traversed identifier reference which is referenced, not allow-listed, not the
function's own name, not a non-computed member property name, not a DIRECT KEY
of an object-literal property (shorthand or computed alike — this is where the
original claim, which excluded only shorthand keys, fails), and not declared on
the lexical scope chain; none exists otherwise, and the array lists the names
in first-discovery order. -/
theorem makeArray_capture_iff (globals : List String) (ast origFun : Fn) :
    (makeArrayFromCapturedBindings globals ast origFun).map Prod.fst
      = dedupFirst (((fnOccs [[]] ast).filter (specCaptures globals origFun.id)).map Occ.name) ∧
    (∀ n, n ∈ (makeArrayFromCapturedBindings globals ast origFun).map Prod.fst ↔
        ∃ o ∈ fnOccs [[]] ast, specCaptures globals origFun.id o = true ∧ o.name = n) := by
  refine ⟨makeArray_keys globals ast origFun, fun n => ?_⟩
  rw [makeArray_keys globals ast origFun]
  unfold dedupFirst
  rw [mem_dedupFirstAux]
  simp only [List.mem_map, List.mem_filter, List.not_mem_nil, not_false_iff, and_true]
  constructor
  · rintro ⟨o, ⟨ho1, ho2⟩, ho3⟩
    exact ⟨o, ho1, ho2, ho3⟩
  · rintro ⟨o, ho1, ho2, ho3⟩
    exact ⟨o, ⟨ho1, ho2⟩, ho3⟩

/-- C1 counterexample: in `() => ({ [x]: 1 })` the computed key `x` is a
referenced identifier that claim C1's rule set (which excludes only SHORTHAND
keys) would capture, yet the code registers no CapturedBinding at all — the
source skips every identifier that is the direct key child of an object
property, computed or not. -/
theorem capture_computed_key_cex :
    ¬ (∀ n : String,
        n ∈ (makeArrayFromCapturedBindings [] astComputedKey astComputedKey).map Prod.fst ↔
        ∃ o ∈ fnOccs [[]] astComputedKey,
          claimCaptures [] astComputedKey.id o = true ∧ o.name = n) := by
  intro h
  have hx : "x" ∈ (makeArrayFromCapturedBindings [] astComputedKey astComputedKey).map Prod.fst :=
    (h "x").mpr (by decide)
  exact absurd hx (by decide)

/-- C3 (amended): the capture collection has set semantics by name and the
array order is the first-discovery order, preserved end-to-end; but when an
already-registered name is referenced again the stored binding is NOT left
unchanged — the entry keeps its position while its representative reference
node is replaced by the later occurrence (JavaScript `Map.set` overwrites). -/
theorem capture_set_semantics (g : List String) (own : Option String) (st : CaptureState)
    (o : Occ) (hq : specCaptures g own o = true)
    (hmem : o.name ∈ st.closure.map Prod.fst) :
    ((visitCapture g own st o).closure.map Prod.fst = st.closure.map Prod.fst) ∧
    mapGet (visitCapture g own st o).closure o.name = some o.loc ∧
    (∀ n, ¬ n = o.name → mapGet (visitCapture g own st o).closure n = mapGet st.closure n) ∧
    (∀ (g2 : List String) (ast orig : Fn),
        (makeArrayFromCapturedBindings g2 ast orig).map Prod.fst
          = dedupFirst (((fnOccs [[]] ast).filter (specCaptures g2 orig.id)).map Occ.name)) := by
  rw [visitCapture_eq, if_pos hq]
  dsimp only
  refine ⟨mapSet_map_fst_mem st.closure o.name o.loc hmem, ?_, ?_, makeArray_keys⟩
  · rw [mapGet_mapSet, if_pos rfl]
  · intro n hn
    rw [mapGet_mapSet, if_neg (fun he => hn he.symm)]

/-- Witness for C3's theorem: re-capturing `x` (already stored with location 1)
at an occurrence with location 5 keeps the key list and replaces the stored
location. -/
theorem capture_set_semantics_witness :
    specCaptures [] none occX = true ∧ "x" ∈ stX.closure.map Prod.fst ∧
    (visitCapture [] none stX occX).closure.map Prod.fst = stX.closure.map Prod.fst ∧
    mapGet (visitCapture [] none stX occX).closure "x" = some (some 5) := by
  refine ⟨by decide, by decide, ?_, ?_⟩
  · exact (capture_set_semantics [] none stX occX (by decide) (by decide)).1
  · exact (capture_set_semantics [] none stX occX (by decide) (by decide)).2.1

/-- C3 counterexample: on `() => x + x` (references of `x` at locations 10 and
20) the returned binding stores the LATER occurrence's node — location 20, not
10 — refuting "the stored binding, including its representative reference node,
is unchanged". -/
theorem capture_repeat_replaces_cex :
    makeArrayFromCapturedBindings [] astRepeated origEmpty = [("x", some 20)] ∧
    ¬ makeArrayFromCapturedBindings [] astRepeated origEmpty = [("x", some 10)] := by
  exact ⟨rfl, by decide⟩

/-- C7: the second traversal (over the original function) only assigns source
locations: the closure's key list — hence the capture set and its order — is
unchanged; a name whose location is already assigned is left untouched; an
unassigned captured name receives the location of its first referenced
occurrence in the original tree and is marked assigned (and keeps its stored
node when no referenced occurrence exists). -/
theorem locationPass_frame (origFun : Fn) (st : CaptureState) :
    (((fnOccs [[]] origFun).foldl visitLoc st).closure.map Prod.fst
        = st.closure.map Prod.fst) ∧
    (∀ n, mapGet st.locAssigned n = some true →
        mapGet ((fnOccs [[]] origFun).foldl visitLoc st).closure n = mapGet st.closure n ∧
        mapGet ((fnOccs [[]] origFun).foldl visitLoc st).locAssigned n = some true) ∧
    (∀ n v, mapGet st.closure n = some v → ¬ mapGet st.locAssigned n = some true →
        (firstRefLoc (fnOccs [[]] origFun) n = none →
            mapGet ((fnOccs [[]] origFun).foldl visitLoc st).closure n = some v) ∧
        (∀ l, firstRefLoc (fnOccs [[]] origFun) n = some l →
            mapGet ((fnOccs [[]] origFun).foldl visitLoc st).closure n = some l ∧
            mapGet ((fnOccs [[]] origFun).foldl visitLoc st).locAssigned n = some true)) :=
  visitLoc_fold_spec (fnOccs [[]] origFun) st

/-- Witness for C7: over `() => x` (reference at location 9) starting from a
state capturing `x` at location 1 unassigned, the pass stores location 9. -/
theorem locationPass_frame_witness :
    mapGet stX.closure "x" = some (some 1) ∧
    ¬ mapGet stX.locAssigned "x" = some true ∧
    firstRefLoc (fnOccs [[]] origSingleX) "x" = some (some 9) ∧
    mapGet ((fnOccs [[]] origSingleX).foldl visitLoc stX).closure "x" = some (some 9) ∧
    mapGet ((fnOccs [[]] origSingleX).foldl visitLoc stX).locAssigned "x" = some true := by
  refine ⟨rfl, by decide, rfl, ?_, ?_⟩
  · exact (((locationPass_frame origSingleX stX).2.2 "x" (some 1) rfl (by decide)).2
      (some 9) rfl).1
  · exact (((locationPass_frame origSingleX stX).2.2 "x" (some 1) rfl (by decide)).2
      (some 9) rfl).2

/-! ### The directive stripper and the wrapper (C8, C5, C4, C9) -/

/-- C8: the directive stripper removes exactly the "worklet" directive
literals whose nearest enclosing function is the processed function (its own
directive list is filtered), and leaves every other part — name, parameters
and the whole body, hence every directive literal belonging to a nested
function — unchanged. -/
theorem removeWorkletDirective_spec (f : Fn) :
    (removeWorkletDirective f).directives = f.directives.filter (fun d => d ≠ "worklet") ∧
    (removeWorkletDirective f).id = f.id ∧
    (removeWorkletDirective f).params = f.params ∧
    (removeWorkletDirective f).body = f.body := by
  cases f with
  | mk i p dirs body => exact ⟨rfl, rfl, rfl, rfl⟩

/-- C5: the emitted wrapper is an anonymous function expression with zero
parameters whose body statements appear in exactly this order: in development
mode the diagnostic anchor first; then the declaration of the synthesized
function under its resolved name; then the `__closure` assignment with one
shorthand (non-computed) property per captured binding; then `__workletHash`;
then, unless metadata is omitted, `__initData`; then, in development mode,
`__stackDetails`; and finally the return of the named function. -/
theorem factory_statement_order (cfg : FactoryConfig) (vars : List (String × Option Nat))
    (funString : String) (sourceMapString : Option String) (filename relativized
    initDataId functionName version : String) :
    (makeWorkletFactory cfg vars funString sourceMapString filename relativized
        initDataId functionName version).wrapperId = none ∧
    (makeWorkletFactory cfg vars funString sourceMapString filename relativized
        initDataId functionName version).wrapperParams = [] ∧
    (makeWorkletFactory cfg vars funString sourceMapString filename relativized
        initDataId functionName version).statements =
      (if cfg.isRelease = false then
          [WStmt.anchorDecl (makeWorkletFactory cfg vars funString sourceMapString filename
            relativized initDataId functionName version).lineOffset (-27)]
        else []) ++
      [WStmt.fnDecl functionName,
       WStmt.closureAssign (vars.map (fun v => (v.1, v.2, false, true))),
       WStmt.hashAssign (hash (funString.data.map Char.toNat))] ++
      (if cfg.omitNativeOnlyData = false then [WStmt.initDataAssign initDataId] else []) ++
      (if cfg.isRelease = false then [WStmt.stackAssign] else []) ++
      [WStmt.retStmt functionName] ∧
    (∀ pr ∈ vars.map (fun v => (v.1, v.2, false, true)),
        (pr : String × Option Nat × Bool × Bool).2.2.2 = true ∧ pr.2.2.1 = false) := by
  obtain ⟨rel, om, relloc, mock⟩ := cfg
  refine ⟨rfl, rfl, ?_, ?_⟩
  · cases rel <;> cases om <;> simp [makeWorkletFactory]
  · intro pr hpr
    rw [List.mem_map] at hpr
    obtain ⟨v, _, hv⟩ := hpr
    rw [← hv]
    exact ⟨rfl, rfl⟩

/-- C4: with the minimal-data configuration set no init-data constant is
hoisted and no `__initData` assignment appears in the wrapper, regardless of
release or development mode; with release mode set, the init-data object that
would be emitted contains neither a `location` nor a `version` field. -/
theorem factory_metadata_suppression (cfg : FactoryConfig)
    (vars : List (String × Option Nat)) (funString : String)
    (sourceMapString : Option String) (filename relativized initDataId functionName
    version : String) :
    (cfg.omitNativeOnlyData = true →
        (makeWorkletFactory cfg vars funString sourceMapString filename relativized
            initDataId functionName version).initDataEmitted = false ∧
        (∀ idn, WStmt.initDataAssign idn ∉
            (makeWorkletFactory cfg vars funString sourceMapString filename relativized
              initDataId functionName version).statements)) ∧
    (cfg.isRelease = true →
        (∀ v, ("location", v) ∉
            (makeWorkletFactory cfg vars funString sourceMapString filename relativized
              initDataId functionName version).initDataProps) ∧
        (∀ v, ("version", v) ∉
            (makeWorkletFactory cfg vars funString sourceMapString filename relativized
              initDataId functionName version).initDataProps)) := by
  obtain ⟨rel, om, relloc, mock⟩ := cfg
  constructor
  · intro homit
    subst homit
    constructor
    · cases rel <;> rfl
    · intro idn
      cases rel <;> simp [makeWorkletFactory]
  · intro hrel
    subst hrel
    constructor
    · intro v
      cases sourceMapString <;> simp [makeWorkletFactory]
    · intro v
      cases sourceMapString <;> simp [makeWorkletFactory]

/-- Witness for C4 with both minimal-data and release mode set. -/
theorem factory_metadata_suppression_witness :
    ({ isRelease := true, omitNativeOnlyData := true, relativeSourceLocation := false,
       mockVersion := false } : FactoryConfig).omitNativeOnlyData = true ∧
    (makeWorkletFactory
        { isRelease := true, omitNativeOnlyData := true, relativeSourceLocation := false,
          mockVersion := false }
        [] "c" none "f.ts" "f.ts" "d" "w" "1.0").initDataEmitted = false ∧
    (∀ v, ("version", v) ∉ (makeWorkletFactory
        { isRelease := true, omitNativeOnlyData := true, relativeSourceLocation := false,
          mockVersion := false }
        [] "c" none "f.ts" "f.ts" "d" "w" "1.0").initDataProps) := by
  refine ⟨rfl, ?_, ?_⟩
  · exact ((factory_metadata_suppression
      { isRelease := true, omitNativeOnlyData := true, relativeSourceLocation := false,
        mockVersion := false } [] "c" none "f.ts" "f.ts" "d" "w" "1.0").1 rfl).1
  · exact ((factory_metadata_suppression
      { isRelease := true, omitNativeOnlyData := true, relativeSourceLocation := false,
        mockVersion := false } [] "c" none "f.ts" "f.ts" "d" "w" "1.0").2 rfl).2

/-- C9: in development mode the diagnostic anchor — an array of an error-like
object and two fixed numeric offsets — is declared before any other statement,
its line offset is 1 when the capture set is empty and 1 − (n + 2) when n ≥ 1
variables are captured, and its column correction is −27. -/
theorem factory_anchor_offsets (cfg : FactoryConfig) (vars : List (String × Option Nat))
    (funString : String) (sourceMapString : Option String) (filename relativized
    initDataId functionName version : String) (hdev : cfg.isRelease = false) :
    (makeWorkletFactory cfg vars funString sourceMapString filename relativized
        initDataId functionName version).lineOffset
      = (if vars.length = 0 then 1 else 1 - ((vars.length : Int) + 2)) ∧
    (makeWorkletFactory cfg vars funString sourceMapString filename relativized
        initDataId functionName version).statements.head?
      = some (WStmt.anchorDecl
          (if vars.length = 0 then 1 else 1 - ((vars.length : Int) + 2)) (-27)) := by
  obtain ⟨rel, om, relloc, mock⟩ := cfg
  simp only at hdev
  subst hdev
  constructor
  · show (if vars.length > 0 then 1 - ((vars.length : Int) + 2) else 1) = _
    cases vars with
    | nil => rfl
    | cons v rest =>
      rw [if_pos (by simp), if_neg (by simp)]
  · show (WStmt.anchorDecl (if vars.length > 0 then 1 - ((vars.length : Int) + 2) else 1)
        (-27) :: _).head? = _
    cases vars with
    | nil => rfl
    | cons v rest => simp

/-- Witness for C9 at a development-mode configuration with two captures. -/
theorem factory_anchor_offsets_witness :
    ({ isRelease := false, omitNativeOnlyData := false, relativeSourceLocation := false,
       mockVersion := false } : FactoryConfig).isRelease = false ∧
    (makeWorkletFactory
        { isRelease := false, omitNativeOnlyData := false, relativeSourceLocation := false,
          mockVersion := false }
        [("a", none), ("b", none)] "c" none "f.ts" "f.ts" "d" "w" "1.0").lineOffset = -3 := by
  refine ⟨rfl, ?_⟩
  have h := (factory_anchor_offsets
    { isRelease := false, omitNativeOnlyData := false, relativeSourceLocation := false,
      mockVersion := false }
    [("a", none), ("b", none)] "c" none "f.ts" "f.ts" "d" "w" "1.0" rfl).1
  rw [h]
  rfl

/-- Witness instantiating C1's theorem on the concrete tree `() => x + x`. -/
theorem makeArray_capture_iff_witness :
    (makeArrayFromCapturedBindings [] astRepeated origEmpty).map Prod.fst = ["x"] ∧
    "x" ∈ (makeArrayFromCapturedBindings [] astRepeated origEmpty).map Prod.fst := by
  refine ⟨rfl, ?_⟩
  exact ((makeArray_capture_iff [] astRepeated origEmpty).2 "x").mpr (by decide)

/-- Witness instantiating C5's theorem at a development-mode configuration
with one captured variable. -/
theorem factory_statement_order_witness :
    (makeWorkletFactory
        { isRelease := false, omitNativeOnlyData := false, relativeSourceLocation := false,
          mockVersion := false }
        [("a", none)] "c" none "f" "f" "d" "w" "1").statements =
      [WStmt.anchorDecl (-2) (-27), WStmt.fnDecl "w",
       WStmt.closureAssign [("a", none, false, true)],
       WStmt.hashAssign (hash ("c".data.map Char.toNat)), WStmt.initDataAssign "d",
       WStmt.stackAssign, WStmt.retStmt "w"] := by
  have h := (factory_statement_order
    { isRelease := false, omitNativeOnlyData := false, relativeSourceLocation := false,
      mockVersion := false }
    [("a", none)] "c" none "f" "f" "d" "w" "1").2.2.1
  rw [h]
  rfl

end Worklet
